import Mathlib

/-!
Verification development for the Ini-Editor repository's encoding-detection
and pipe-delimited record parser.

The Python sources are shallowly embedded over `List Char` (text) and
`List (List Char × List Char)` (a record: an insertion-ordered dictionary
from field name to value, mirroring Python `dict` semantics).  Python string
primitives (`splitlines`, `strip`, `split` with maxsplit, `count`,
`startswith`/`endswith`) are modelled by executable functions below.

Embedded source functions:
  * `src/src/parser.py`: `load_headers`, `parse_pipe_text` (and its helpers);
  * `src/src/parser_refactored.py` (namespace `Refactored`): `load_headers`,
    `is_continuation_line`, `clean_tip_field`, `skip_metadata_lines`,
    `build_records`, `parse_record_lines`, `parse_pipe_text`, `is_pipe_file`;
  * `src/ini_editor.py` / `src/ini_editor_refactored.py`: the encoding
    detector `detect_encoding` (`read_text_with_encodings` has the same body),
    parametrised by the candidate decoders, which are Python stdlib codecs and
    hence external collaborators of the repository.
-/

/-- Characters for which Python's `str.isspace()` (and the unicode `\s`
regex class) returns true. -/
def isPySpace (c : Char) : Bool :=
  decide (c ∈ [' ', '\t', '\n', '\r', '\x0b', '\x0c',
    '\x1c', '\x1d', '\x1e', '\x1f', '\x85', '\xa0',
    ' ', ' ', ' ', ' ', ' ', ' ', ' ',
    ' ', ' ', ' ', ' ', ' ',
    ' ', ' ', ' ', ' ', '　'])

/-- Line-boundary characters recognised by Python's `str.splitlines`. -/
def isLineBreak (c : Char) : Bool :=
  decide (c ∈ ['\n', '\r', '\x0b', '\x0c', '\x1c', '\x1d', '\x1e',
    '\x85', ' ', ' '])

/-- The explicit regex class `[0-9]` of the metadata pattern
`^[\|\s]*V\.[0-9]+\|[0-9]+`. -/
def isDigitCh (c : Char) : Bool :=
  decide (c ∈ ['0', '1', '2', '3', '4', '5', '6', '7', '8', '9'])

/-- The code-point ranges of Unicode general category Nd (decimal digits),
per the Unicode 14 database used by the interpreter. -/
def ndRanges : List (Nat × Nat) :=
  [(0x30, 0x39), (0x660, 0x669), (0x6F0, 0x6F9), (0x7C0, 0x7C9),
   (0x966, 0x96F), (0x9E6, 0x9EF), (0xA66, 0xA6F), (0xAE6, 0xAEF),
   (0xB66, 0xB6F), (0xBE6, 0xBEF), (0xC66, 0xC6F), (0xCE6, 0xCEF),
   (0xD66, 0xD6F), (0xDE6, 0xDEF), (0xE50, 0xE59), (0xED0, 0xED9),
   (0xF20, 0xF29), (0x1040, 0x1049), (0x1090, 0x1099), (0x17E0, 0x17E9),
   (0x1810, 0x1819), (0x1946, 0x194F), (0x19D0, 0x19D9), (0x1A80, 0x1A89),
   (0x1A90, 0x1A99), (0x1B50, 0x1B59), (0x1BB0, 0x1BB9), (0x1C40, 0x1C49),
   (0x1C50, 0x1C59), (0xA620, 0xA629), (0xA8D0, 0xA8D9), (0xA900, 0xA909),
   (0xA9D0, 0xA9D9), (0xA9F0, 0xA9F9), (0xAA50, 0xAA59), (0xABF0, 0xABF9),
   (0xFF10, 0xFF19), (0x104A0, 0x104A9), (0x10D30, 0x10D39),
   (0x11066, 0x1106F), (0x110F0, 0x110F9), (0x11136, 0x1113F),
   (0x111D0, 0x111D9), (0x112F0, 0x112F9), (0x11450, 0x11459),
   (0x114D0, 0x114D9), (0x11650, 0x11659), (0x116C0, 0x116C9),
   (0x11730, 0x11739), (0x118E0, 0x118E9), (0x11950, 0x11959),
   (0x11C50, 0x11C59), (0x11D50, 0x11D59), (0x11DA0, 0x11DA9),
   (0x16A60, 0x16A69), (0x16AC0, 0x16AC9), (0x16B50, 0x16B59),
   (0x1D7CE, 0x1D7FF), (0x1E140, 0x1E149), (0x1E2F0, 0x1E2F9),
   (0x1E950, 0x1E959), (0x1FBF0, 0x1FBF9)]

/-- The regex class `\d` of the record-id patterns `^\s*\d+\|` and
`^\d+\|`: in Python's `re` on `str` it matches every Unicode decimal digit
(general category Nd), e.g. `٣` and `３`, not only `0-9`. -/
def isPyDigit (c : Char) : Bool :=
  ndRanges.any (fun r => decide (r.1 ≤ c.toNat ∧ c.toNat ≤ r.2))

/-- The CJK ranges of the detector's scoring regex
`[一-鿿㐀-䶿豈-﫿]`. -/
def isCJK (c : Char) : Bool :=
  decide ((0x4e00 ≤ c.toNat ∧ c.toNat ≤ 0x9fff) ∨
    (0x3400 ≤ c.toNat ∧ c.toNat ≤ 0x4dbf) ∨
    (0xf900 ≤ c.toNat ∧ c.toNat ≤ 0xfaff))

/-- `s.split(sep, maxsplit)` accumulator.  A negative `maxsplit` splits
without bound, matching Python's convention. -/
def pySplitAux (sep : Char) : Int → List Char → List Char → List (List Char)
  | _, acc, [] => [acc.reverse]
  | n, acc, c :: rest =>
    if c = sep ∧ n ≠ 0 then acc.reverse :: pySplitAux sep (n - 1) [] rest
    else pySplitAux sep n (c :: acc) rest

/-- Python `s.split(sep, maxsplit)` on character lists. -/
def pySplit (sep : Char) (maxsplit : Int) (s : List Char) : List (List Char) :=
  pySplitAux sep maxsplit [] s

/-- `str.splitlines` worker: `keep` is the `keepends` flag; `\r\n` counts as
a single boundary. -/
def slAux (keep : Bool) (acc : List Char) : List Char → List (List Char)
  | [] => if acc.isEmpty then [] else [acc.reverse]
  | '\r' :: '\n' :: rest =>
    (acc.reverse ++ if keep then ['\r', '\n'] else []) :: slAux keep [] rest
  | '\r' :: rest =>
    (acc.reverse ++ if keep then ['\r'] else []) :: slAux keep [] rest
  | c :: rest =>
    if isLineBreak c then
      (acc.reverse ++ if keep then [c] else []) :: slAux keep [] rest
    else slAux keep (c :: acc) rest

/-- Python `text.splitlines(keepends=True)`. -/
def splitlinesKeep (t : List Char) : List (List Char) := slAux true [] t

/-- Python `text.splitlines()`. -/
def splitlinesPlain (t : List Char) : List (List Char) := slAux false [] t

/-- Python `text.lstrip('﻿')`: drop leading byte-order marks. -/
def lstripBOM (t : List Char) : List Char := t.dropWhile (· = '﻿')

/-- Strip the trailing run of characters satisfying `p` (Python `rstrip`). -/
def rstripP (p : Char → Bool) : List Char → List Char
  | [] => []
  | c :: t =>
    let r := rstripP p t
    if r = [] ∧ p c then [] else c :: r

/-- Python `s.rstrip('\n')`. -/
def rstripNl (s : List Char) : List Char := rstripP (· = '\n') s

/-- Python `s.strip()` (default whitespace stripping). -/
def pyStrip (s : List Char) : List Char := rstripP isPySpace (s.dropWhile isPySpace)

/-- Python `s.count('|')`. -/
def countPipes (s : List Char) : Nat := s.countP (· = '|')

/-- `re.match(r'^[\|\s]*V\.[0-9]+\|[0-9]+', s)` as a boolean.  The character
class never overlaps `V` or `[0-9]`, so the greedy scan needs no backtracking. -/
def metaMatch (s : List Char) : Bool :=
  let r := s.dropWhile (fun c => c = '|' || isPySpace c)
  decide (r.head? = some 'V') && decide ((r.drop 1).head? = some '.') &&
    (let r2 := r.drop 2
     let ds := r2.takeWhile isDigitCh
     !ds.isEmpty && decide ((r2.drop ds.length).head? = some '|') &&
       !((r2.drop (ds.length + 1)).takeWhile isDigitCh).isEmpty)

/-- `re.match(r'^\s*\d+\|', s)` as a boolean. -/
def newrecMatch (s : List Char) : Bool :=
  let r := s.dropWhile isPySpace
  let ds := r.takeWhile isPyDigit
  !ds.isEmpty && decide ((r.drop ds.length).head? = some '|')

/-- `re.match(r'^\d+\|', s)` as a boolean (the classifier's id pattern). -/
def idMatch (s : List Char) : Bool :=
  let ds := s.takeWhile isPyDigit
  !ds.isEmpty && decide ((s.drop ds.length).head? = some '|')

/-- A parsed record: insertion-ordered association list, as a Python `dict`. -/
abbrev PyRecord := List (List Char × List Char)

/-- Python `d[k] = v`: update in place if the key exists, else append. -/
def dictSet : PyRecord → List Char → List Char → PyRecord
  | [], k, v => [(k, v)]
  | (k', v') :: t, k, v =>
    if k' = k then (k, v) :: t else (k', v') :: dictSet t k v

/-- Python `d.get(k)`. -/
def dictGet? : PyRecord → List Char → Option (List Char)
  | [], _ => none
  | (k', v) :: t, k => if k' = k then some v else dictGet? t k

/-- The literal dictionary key `'Tip'` used by the continuation branch. -/
def tipK : List Char := ['T', 'i', 'p']

/-- The Tip-field cleaning in `parse_pipe_text`: drop trailing `'\n'`
characters, then at most one leading and at most one trailing `'|'`. -/
def cleanTip (v : List Char) : List Char :=
  let c := rstripNl v
  let c := if c.head? = some '|' then c.tail else c
  if c.getLast? = some '|' then c.dropLast else c

/-- Per-field value transformation when a record is built: the Tip field
(case-insensitive name) is cleaned, every other field is stripped. -/
def fieldVal (key : List Char) (val : List Char) : List Char :=
  if key.map Char.toLower = ['t', 'i', 'p'] then cleanTip val else pyStrip val

/-- Right-pad a parts list with empty strings up to `n` entries. -/
def padTo (n : Nat) (parts : List (List Char)) : List (List Char) :=
  parts ++ List.replicate (n - parts.length) []

/-- The record-construction loop
`for i in range(expected_fields): rec[headers[i]] = ...`. -/
def buildRecord (headers : List (List Char)) (parts : List (List Char)) : PyRecord :=
  headers.enum.foldl
    (fun rec p => dictSet rec p.2 (fieldVal p.2 (parts.getD p.1 []))) []

/-- Turn a completed accumulator buffer into a record:
`parts = buf.rstrip('\n').split('|', expected_separators)` padded to
`expected_fields`, then the field loop. -/
def emitRecord (headers : List (List Char)) (sep : Int) (buf : List Char) : PyRecord :=
  buildRecord headers (padTo headers.length (pySplit '|' sep (rstripNl buf)))

/-- Fold a continuation line into a record's `'Tip'` entry
(`last_rec['Tip'] = prev + '\n' + cleaned` with the empty-`prev` special
case). -/
def tipAppend (rec : PyRecord) (raw : List Char) : PyRecord :=
  let prev := (dictGet? rec tipK).getD []
  let cleaned := cleanTip raw
  dictSet rec tipK (if prev ≠ [] then prev ++ '\n' :: cleaned else cleaned)

/-- Apply a continuation line to the most recently emitted record, if any
(`last_rec` aliases the last element of `records`, so the mutation is
visible in the output list). -/
def contFold : List PyRecord → List Char → List PyRecord
  | [], _ => []
  | r :: rest, raw =>
    if rest = [] then [tipAppend r raw] else r :: contFold rest raw

/-- One iteration of the `for raw_line in lines` loop of `parse_pipe_text`.
State: records emitted so far and the accumulator `buf_lines`. -/
def parseStep (headers : List (List Char)) (sep : Int)
    (st : List PyRecord × List (List Char)) (raw : List Char) :
    List PyRecord × List (List Char) :=
  let (recs, buf) := st
  if buf = [] ∧ newrecMatch raw = false ∧ (countPipes raw : Int) < sep then
    (contFold recs raw, buf)
  else
    let buf' := buf ++ [raw]
    let joined := buf'.flatten
    if (countPipes joined : Int) < sep then (recs, buf')
    else (recs ++ [emitRecord headers sep joined], [])

/-- The line-processing core of `parse_pipe_text`, after metadata removal:
the fold over lines plus the final flush of a non-empty buffer. -/
def parsePipeLines (lines : List (List Char)) (headers : List (List Char)) :
    List PyRecord :=
  let sep : Int := (headers.length : Int) - 1
  let st := lines.foldl (parseStep headers sep) ([], [])
  if st.2 = [] then st.1 else st.1 ++ [emitRecord headers sep st.2.flatten]

/-- Drop the first line when it is a metadata line
(`if lines and meta_re.match(lines[0].strip()): lines = lines[1:]`). -/
def metaDrop : List (List Char) → List (List Char)
  | [] => []
  | l :: rest => if metaMatch (pyStrip l) then rest else l :: rest

/-- `parse_pipe_text` from `src/src/parser.py` over character lists. -/
def parse_pipe_text (text : List Char) (headers : List (List Char)) :
    List PyRecord :=
  parsePipeLines (metaDrop (splitlinesKeep (lstripBOM text))) headers

/-- `parse_pipe_text` with `String` input and output for readable statements. -/
def parsePipeTextS (text : String) (headers : List String) :
    List (List (String × String)) :=
  (parse_pipe_text text.data (headers.map String.data)).map
    (fun r => r.map (fun p => (String.mk p.1, String.mk p.2)))

/-- `load_headers` from `src/src/parser.py`, as a function of the decoded
file text (`latin-1` decoding of the raw bytes never fails):
`[h.strip() for h in s.strip().split(',') if h.strip()]`. -/
def load_headers (s : List Char) : List (List Char) :=
  (pySplit ',' (-1) (pyStrip s)).filterMap
    (fun h => if pyStrip h = [] then none else some (pyStrip h))

/-- Modelled from the spec's description of the header loader, for
comparison with `load_headers`: split the text on commas, trim each
resulting token, and drop the tokens that are empty after trimming. -/
def loadHeadersSpec (s : List Char) : List (List Char) :=
  ((pySplit ',' (-1) (pyStrip s)).map pyStrip).filter (fun t => decide (t ≠ []))

/-- `[ln.strip() for ln in text.splitlines() if ln.strip()]`: the stripped
non-blank lines the classifier works on. -/
def strippedNonblank (t : List Char) : List (List Char) :=
  (splitlinesPlain t).filterMap
    (fun ln => let s := pyStrip ln; if s = [] then none else some s)

namespace Refactored

/-- `load_headers` from `src/src/parser_refactored.py`, as a function of the
decoded file text: `[h.strip() for h in txt.splitlines()[0].split(',')]`.
An empty text makes every encoding attempt raise `IndexError`, ending in the
`ValueError` modelled by `none`. -/
def load_headers (t : List Char) : Option (List (List Char)) :=
  match splitlinesPlain t with
  | [] => none
  | l0 :: _ => some ((pySplit ',' (-1) l0).map pyStrip)

/-- `is_continuation_line`: no `^\s*\d+\|` match on the stripped line. -/
def is_continuation_line (l : List Char) : Bool :=
  !newrecMatch (pyStrip l)

/-- `clean_tip_field`: `value.lstrip('|').rstrip('|')` — strips every edge
pipe, not just one. -/
def clean_tip_field (v : List Char) : List Char :=
  rstripP (· = '|') (v.dropWhile (· = '|'))

/-- `skip_metadata_lines`: keep only lines whose stripped form does not
match the metadata regex, wherever they occur. -/
def skip_metadata_lines : List (List Char) → List (List Char)
  | [] => []
  | l :: rest =>
    if metaMatch (pyStrip l) then skip_metadata_lines rest
    else l :: skip_metadata_lines rest

/-- The completion loop of `_parse_record_lines`: append continuation lines
(joined by `'\n'`) until the pipe count reaches `expected_separators`. -/
def extend_main (sep : Int) (main : List Char) : List (List Char) → List Char
  | [] => main
  | c :: rest =>
    let m := main ++ '\n' :: c
    if sep ≤ (countPipes m : Int) then m else extend_main sep m rest

/-- `_parse_record_lines(lines, headers, expected_separators)`; callers pass
a non-empty `lines` (`lines[0]` is read as `headD`). -/
def parse_record_lines (ls : List (List Char)) (headers : List (List Char))
    (sep : Int) : PyRecord :=
  let main := ls.headD []
  let conts := ls.tail
  let main := if (countPipes main : Int) < sep then extend_main sep main conts else main
  let parts := pySplit '|' (headers.length : Int) main
  let parts := padTo headers.length parts
  headers.enum.foldl
    (fun rec p =>
      let value := parts.getD p.1 []
      if p.2.map Char.toLower = ['t', 'i', 'p'] then
        let value := conts.foldl
          (fun v c => if is_continuation_line c then v ++ '\n' :: c else v) value
        dictSet rec p.2 (clean_tip_field value)
      else dictSet rec p.2 (pyStrip value)) []

/-- `build_records(lines, headers)`: group stripped non-blank lines into
accumulators, splitting before each non-continuation line. -/
def build_records (lines : List (List Char)) (headers : List (List Char)) :
    List PyRecord :=
  let sep : Int := (headers.length : Int) - 1
  let st := lines.foldl
    (fun (st : List PyRecord × List (List Char)) line =>
      let (records, acc) := st
      let stripped := pyStrip line
      if stripped = [] then st
      else if is_continuation_line stripped = true ∧ acc ≠ [] then
        (records, acc ++ [stripped])
      else
        ((if acc ≠ [] then records ++ [parse_record_lines acc headers sep]
          else records), [stripped]))
    ([], [])
  if st.2 ≠ [] then st.1 ++ [parse_record_lines st.2 headers sep] else st.1

/-- `parse_pipe_text` from `src/src/parser_refactored.py`. -/
def parse_pipe_text (t : List Char) (headers : List (List Char)) :
    List PyRecord :=
  build_records
    (skip_metadata_lines ((splitlinesPlain t).filter (fun ln => pyStrip ln ≠ [])))
    headers

/-- `is_pipe_file(text, headers)` from `src/src/parser_refactored.py`.
`if headers:` is Python truthiness: `None` and `[]` both take the
schema-less branch. -/
def is_pipe_file (t : List Char) (headers : Option (List (List Char))) : Bool :=
  let lines := strippedNonblank t
  if lines.length < 5 then false
  else
    let lines := skip_metadata_lines lines
    if (lines.take 20).countP idMatch < 5 then false
    else
      match headers with
      | some (h :: hs) =>
        (lines.take 10).any
          (fun ln => idMatch ln && decide ((h :: hs).length - 1 ≤ countPipes ln))
      | _ =>
        (lines.take 10).any (fun ln => idMatch ln && decide (3 ≤ countPipes ln))

end Refactored

/-- Count of code points in `text` satisfying the CJK ranges
(`len(cjk_re.findall(txt))`). -/
def cjkCount (t : List Char) : Nat := t.countP isCJK

/-- Non-overlapping occurrences of the two-character sequence `a, b`
(Python `str.count` with a two-character needle). -/
def countSub2 (a b : Char) : List Char → Nat
  | [] => 0
  | [_] => 0
  | x :: y :: rest =>
    if x = a ∧ y = b then 1 + countSub2 a b rest
    else countSub2 a b (y :: rest)

/-- `txt.count('�') + txt.count('Â\x9d')`: the replacement/control
artifact count of the detector's scorer (the second literal is bytes
`c2 9d` of the latin-1-coded source file). -/
def replCount (t : List Char) : Nat :=
  t.countP (· = '�') + countSub2 '\xc2' '\x9d' t

/-- `score = cjk * 10 - repl * 100`. -/
def scoreOf (t : List Char) : Int :=
  (cjkCount t : Int) * 10 - (replCount t : Int) * 100

/-- One loop iteration of the detector: keep the candidate when there is no
best yet or its score strictly exceeds the best score. -/
def detStep (raw : List Nat)
    (best : Option ((List Char × List Char) × Int))
    (cand : List Char × (List Nat → List Char)) :
    Option ((List Char × List Char) × Int) :=
  let txt := cand.2 raw
  let s := scoreOf txt
  match best with
  | none => some ((txt, cand.1), s)
  | some (p, bs) => if s > bs then some ((txt, cand.1), s) else some (p, bs)

/-- The permissive fallback `raw_bytes.decode('latin-1', errors='replace')`:
latin-1 maps each byte to the code point of the same value. -/
def latin1Decode (raw : List Nat) : List Char :=
  raw.map (fun b => Char.ofNat (b % 256))

/-- `detect_encoding(raw_bytes, encodings)` from
`src/ini_editor_refactored.py` (and, with identical logic,
`read_text_with_encodings` from `src/ini_editor.py`).  Candidates are
(name, decoder) pairs; the stdlib codecs with `errors='replace'` never
raise, so the `try/except` is not modelled. -/
def detect_encoding (cands : List (List Char × (List Nat → List Char)))
    (raw : List Nat) : List Char × List Char :=
  match cands.foldl (detStep raw) none with
  | some (p, _) => p
  | none => (latin1Decode raw, ['l', 'a', 't', 'i', 'n', '-', '1'])

/-- The separator-count threshold `expected_separators = len(headers) - 1`. -/
def parseSep (headers : List (List Char)) : Int := (headers.length : Int) - 1

/-- Index of the first occurrence of key `k` in a header list. -/
def posOf (k : List Char) : List (List Char) → Nat
  | [] => 0
  | h :: t => if h = k then 0 else posOf k t + 1

/-- The parts a completed main line splits into. -/
def mainParts (headers : List (List Char)) (mainBody : List Char) :
    List (List Char) :=
  padTo headers.length (pySplit '|' (parseSep headers) (rstripNl mainBody))

/-- The cleaned Tip fragment a record's main line contributes. -/
def tipFrag (headers : List (List Char)) (mainBody : List Char) : List Char :=
  cleanTip ((mainParts headers mainBody).getD (posOf tipK headers) [])

/-! ### List and string-primitive lemmas -/

theorem rstripP_idem (p : Char → Bool) : ∀ l, rstripP p (rstripP p l) = rstripP p l
  | [] => rfl
  | c :: t => by
    simp only [rstripP]
    by_cases h : rstripP p t = [] ∧ p c = true
    · rw [if_pos h]; rfl
    · rw [if_neg h]
      simp only [rstripP, rstripP_idem p t]
      rw [if_neg h]

theorem rstripP_append_pos (p : Char → Bool) (a : Char) (h : p a = true) :
    ∀ l, rstripP p (l ++ [a]) = rstripP p l
  | [] => by simp [rstripP, h]
  | c :: t => by
    simp only [List.cons_append, rstripP, List.append_eq,
      rstripP_append_pos p a h t]

theorem rstripP_append_neg (p : Char → Bool) (a : Char) (h : p a = false) :
    ∀ l, rstripP p (l ++ [a]) = l ++ [a]
  | [] => by simp [rstripP, h]
  | c :: t => by
    simp only [List.cons_append, rstripP, List.append_eq,
      rstripP_append_neg p a h t]
    rw [if_neg]
    rintro ⟨h1, -⟩
    simp at h1

theorem rstripP_all_neg (p : Char → Bool) :
    ∀ l, (∀ c ∈ l, p c = false) → rstripP p l = l
  | [], _ => rfl
  | c :: t, h => by
    simp only [rstripP,
      rstripP_all_neg p t (fun d hd => h d (List.mem_cons_of_mem c hd))]
    rw [if_neg]
    rintro ⟨-, h2⟩
    rw [h c (List.mem_cons_self c t)] at h2
    exact Bool.false_ne_true h2

theorem rstripP_head? (p : Char → Bool) :
    ∀ {l : List Char} {c t}, rstripP p l = c :: t → l.head? = some c
  | [], c, t, h => by simp [rstripP] at h
  | a :: l', c, t, h => by
    simp only [rstripP] at h
    by_cases hc : rstripP p l' = [] ∧ p a = true
    · rw [if_pos hc] at h; exact absurd h (by simp)
    · rw [if_neg hc] at h
      injection h with e1 _
      simp [e1]

theorem dropWhile_head_neg (p : Char → Bool) :
    ∀ {l : List Char} {c t}, l.dropWhile p = c :: t → p c = false
  | [], c, t, h => by simp [List.dropWhile] at h
  | a :: l', c, t, h => by
    by_cases ha : p a = true
    · rw [List.dropWhile_cons_of_pos ha] at h
      exact dropWhile_head_neg p h
    · rw [List.dropWhile_cons_of_neg (by simpa using ha)] at h
      injection h with e1 _
      rw [← e1]
      simpa using ha

theorem pyStrip_idem (l : List Char) : pyStrip (pyStrip l) = pyStrip l := by
  show pyStrip (rstripP isPySpace (l.dropWhile isPySpace)) = _
  have hdw : (rstripP isPySpace (l.dropWhile isPySpace)).dropWhile isPySpace =
      rstripP isPySpace (l.dropWhile isPySpace) := by
    cases hm2 : rstripP isPySpace (l.dropWhile isPySpace) with
    | nil => simp
    | cons c t =>
      have h1 : (l.dropWhile isPySpace).head? = some c := rstripP_head? _ hm2
      have h2 : isPySpace c = false := by
        cases h3 : l.dropWhile isPySpace with
        | nil => rw [h3] at h1; exact absurd h1 (by simp)
        | cons d t' =>
          rw [h3] at h1
          have : d = c := by simpa using h1
          exact this ▸ dropWhile_head_neg isPySpace h3
      exact List.dropWhile_cons_of_neg (by simp [h2])
  show rstripP isPySpace ((rstripP isPySpace (l.dropWhile isPySpace)).dropWhile isPySpace) = _
  rw [hdw]
  exact rstripP_idem _ _

theorem takeWhile_append_all (p : Char → Bool) :
    ∀ (l1 : List Char) (x : Char) (l2 : List Char),
      (∀ c ∈ l1, p c = true) → p x = false →
      (l1 ++ x :: l2).takeWhile p = l1
  | [], x, l2, _, hx => by simp [List.takeWhile_cons, hx]
  | c :: t, x, l2, h, hx => by
    have hc := h c (List.mem_cons_self c t)
    simp only [List.cons_append, List.takeWhile_cons, hc, if_true]
    rw [takeWhile_append_all p t x l2 (fun d hd => h d (List.mem_cons_of_mem c hd)) hx]

theorem lstripBOM_eq_self {t : List Char} (h : t.head? ≠ some '﻿') :
    lstripBOM t = t := by
  cases t with
  | nil => rfl
  | cons c t' =>
    have : c ≠ '﻿' := by
      intro e; exact h (by simp [e])
    exact List.dropWhile_cons_of_neg (by simpa using this)

theorem isDigitCh_props {c : Char} (h : isDigitCh c = true) :
    isLineBreak c = false ∧ isPySpace c = false ∧ c ≠ '|' ∧ c ≠ 'V' := by
  simp only [isDigitCh, decide_eq_true_eq] at h
  fin_cases h <;> decide

/-! ### splitlines lemmas -/

theorem slAux_cons_ne (keep : Bool) (acc : List Char) (c : Char) (rest : List Char)
    (hc : c ≠ '\r') :
    slAux keep acc (c :: rest) =
      if isLineBreak c then
        (acc.reverse ++ if keep then [c] else []) :: slAux keep [] rest
      else slAux keep (c :: acc) rest := by
  rw [slAux.eq_def]
  split
  · simp_all
  · rename_i h
    injection h with e1 e2
    exact absurd e1 hc
  · rename_i h h2
    injection h2 with e1 e2
    exact absurd e1 hc
  · rename_i h h2 h3
    injection h3 with e1 e2
    subst e1
    subst e2
    rfl

theorem slAux_flatten :
    ∀ (l : List Char) (acc), (slAux true acc l).flatten = acc.reverse ++ l
  | [], acc => by
    by_cases h : acc = [] <;> simp [slAux, h]
  | '\r' :: '\n' :: rest, acc => by
    simp [slAux, slAux_flatten rest []]
  | '\r' :: rest, acc => by
    match rest with
    | '\n' :: rest2 => simp [slAux, slAux_flatten rest2 []]
    | [] => simp [slAux]
    | c :: rest2 =>
      by_cases hc : c = '\n'
      · subst hc; simp [slAux, slAux_flatten rest2 []]
      · have he : slAux true acc ('\r' :: c :: rest2) =
            (acc.reverse ++ ['\r']) :: slAux true [] (c :: rest2) := by
          rw [slAux.eq_def]
          split
          · simp_all
          · rename_i h
            injection h with e1 e2
            injection e2 with e3 e4
            exact absurd e3 hc
          · rename_i hne h2
            injection h2 with e1 e2
            subst e2
            simp
          · rename_i h h2 h3
            injection h3 with e1 e2
            subst e1; subst e2
            simp [isLineBreak]
        rw [he, List.flatten_cons, slAux_flatten (c :: rest2) []]
        simp
  | c :: rest, acc => by
    by_cases hc : c = '\r'
    · subst hc
      match rest with
      | [] => simp [slAux]
      | '\n' :: rest2 => simp [slAux, slAux_flatten rest2 []]
      | d :: rest2 =>
        by_cases hd : d = '\n'
        · subst hd; simp [slAux, slAux_flatten rest2 []]
        · have he : slAux true acc ('\r' :: d :: rest2) =
              (acc.reverse ++ ['\r']) :: slAux true [] (d :: rest2) := by
            rw [slAux.eq_def]
            split
            · simp_all
            · rename_i h
              injection h with e1 e2
              injection e2 with e3 e4
              exact absurd e3 hd
            · rename_i hne h2
              injection h2 with e1 e2
              subst e2
              simp
            · rename_i h h2 h3
              injection h3 with e1 e2
              subst e1; subst e2
              simp [isLineBreak]
          rw [he, List.flatten_cons, slAux_flatten (d :: rest2) []]
          simp
    · rw [slAux_cons_ne true acc c rest hc]
      by_cases hb : isLineBreak c = true
      · simp [hb, slAux_flatten rest []]
      · simp only [hb, Bool.false_eq_true, if_false]
        rw [slAux_flatten rest (c :: acc)]
        simp

theorem splitlines_flatten (t : List Char) : (splitlinesKeep t).flatten = t := by
  simpa using slAux_flatten t []

theorem mem_of_mem_splitlines {t l : List Char} (hl : l ∈ splitlinesKeep t)
    {c : Char} (hc : c ∈ l) : c ∈ t := by
  have : c ∈ (splitlinesKeep t).flatten := List.mem_flatten.mpr ⟨l, hl, hc⟩
  rwa [splitlines_flatten] at this

theorem slAux_append_nl :
    ∀ (a : List Char) (acc rest : List Char),
      (∀ c ∈ a, isLineBreak c = false) →
      slAux true acc (a ++ '\n' :: rest) =
        ((acc.reverse ++ a) ++ ['\n']) :: slAux true [] rest
  | [], acc, rest, _ => by
    rw [List.nil_append, slAux_cons_ne true acc '\n' rest (by decide)]
    simp [isLineBreak]
  | c :: a', acc, rest, h => by
    have hc : isLineBreak c = false := h c (List.mem_cons_self c a')
    have hcr : c ≠ '\r' := by
      intro e; subst e; exact absurd hc (by decide)
    rw [List.cons_append, slAux_cons_ne true acc c _ hcr, if_neg (by simp [hc])]
    rw [slAux_append_nl a' (c :: acc) rest (fun d hd => h d (List.mem_cons_of_mem c hd))]
    simp [List.append_assoc]

theorem splitlines_append_nl (a rest : List Char)
    (h : ∀ c ∈ a, isLineBreak c = false) :
    splitlinesKeep (a ++ '\n' :: rest) = (a ++ ['\n']) :: splitlinesKeep rest := by
  show slAux true [] (a ++ '\n' :: rest) = _
  rw [slAux_append_nl a [] rest h]
  simp [splitlinesKeep]

theorem splitlines_map_nl :
    ∀ (bodies : List (List Char)),
      (∀ b ∈ bodies, ∀ c ∈ b, isLineBreak c = false) →
      splitlinesKeep ((bodies.map (· ++ ['\n'])).flatten) =
        bodies.map (· ++ ['\n'])
  | [], _ => rfl
  | b :: bs, h => by
    have e : ((b :: bs).map (· ++ ['\n'])).flatten =
        b ++ '\n' :: ((bs.map (· ++ ['\n'])).flatten) := by
      simp
    rw [e, splitlines_append_nl b _ (h b (List.mem_cons_self b bs)),
      splitlines_map_nl bs (fun x hx => h x (List.mem_cons_of_mem b hx))]
    simp

/-! ### Dictionary and record lemmas -/

theorem dictSet_keys_of_mem {k : List Char} (v : List Char) :
    ∀ {d : PyRecord}, k ∈ d.map Prod.fst →
      (dictSet d k v).map Prod.fst = d.map Prod.fst
  | [], h => absurd h (by simp)
  | (k', v') :: t, h => by
    simp only [dictSet]
    by_cases he : k' = k
    · rw [if_pos he]
      simp [he]
    · rw [if_neg he]
      have hmt : k ∈ t.map Prod.fst := by
        simp only [List.map_cons] at h
        rcases List.mem_cons.mp h with h1 | h1
        · exact absurd h1.symm he
        · exact h1
      simp [dictSet_keys_of_mem v hmt]

theorem dictSet_of_not_mem {k : List Char} (v : List Char) :
    ∀ {d : PyRecord}, k ∉ d.map Prod.fst → dictSet d k v = d ++ [(k, v)]
  | [], _ => rfl
  | (k', v') :: t, h => by
    simp only [dictSet]
    have he : k' ≠ k := by
      intro e; exact h (by simp [e])
    rw [if_neg he, dictSet_of_not_mem v (fun hm => h (by simp [hm]))]
    rfl

theorem dictGet?_set_self : ∀ (d : PyRecord) (k v), dictGet? (dictSet d k v) k = some v
  | [], k, v => by simp [dictSet, dictGet?]
  | (k', v') :: t, k, v => by
    simp only [dictSet]
    by_cases he : k' = k
    · rw [if_pos he]
      simp [dictGet?]
    · rw [if_neg he]
      simp only [dictGet?]
      rw [if_neg he]
      exact dictGet?_set_self t k v

theorem foldl_dictSet_fresh :
    ∀ (pairs : List (List Char × List Char)) (d : PyRecord),
      (∀ p ∈ pairs, p.1 ∉ d.map Prod.fst) → (pairs.map Prod.fst).Nodup →
      pairs.foldl (fun acc q => dictSet acc q.1 q.2) d = d ++ pairs
  | [], d, _, _ => by simp
  | (k, v) :: rest, d, hdisj, hnd => by
    simp only [List.foldl_cons]
    rw [dictSet_of_not_mem v (hdisj (k, v) (List.mem_cons_self _ _))]
    have hnd0 : (k :: rest.map Prod.fst).Nodup := by
      simpa only [List.map_cons] using hnd
    have hnd' := List.nodup_cons.mp hnd0
    rw [foldl_dictSet_fresh rest (d ++ [(k, v)]) ?_ hnd'.2]
    · simp
    · intro p hp hmem
      rw [List.map_append, List.mem_append] at hmem
      rcases hmem with h1 | h2
      · exact hdisj p (List.mem_cons_of_mem _ hp) h1
      · have h2' : p.1 = k := by simpa using h2
        have : p.1 ∈ rest.map Prod.fst := List.mem_map_of_mem Prod.fst hp
        rw [h2'] at this
        exact hnd'.1 this

theorem buildRecord_eq (headers : List (List Char)) (parts : List (List Char))
    (hnd : headers.Nodup) :
    buildRecord headers parts =
      headers.enum.map (fun p => (p.2, fieldVal p.2 (parts.getD p.1 []))) := by
  show headers.enum.foldl
      (fun rec p => dictSet rec p.2 (fieldVal p.2 (parts.getD p.1 []))) [] = _
  rw [← List.foldl_map (fun p : Nat × List Char => (p.2, fieldVal p.2 (parts.getD p.1 [])))
    (fun acc q => dictSet acc q.1 q.2)]
  apply foldl_dictSet_fresh
  · intro p _
    simp
  · rw [List.map_map]
    rw [show (Prod.fst ∘ fun p : Nat × List Char =>
        (p.2, fieldVal p.2 (parts.getD p.1 []))) = Prod.snd from rfl]
    rw [List.enum_map_snd]
    exact hnd

theorem dictGet?_enum_map (f : Nat → List Char → List Char) :
    ∀ (headers : List (List Char)) (n : Nat) (k : List Char), k ∈ headers →
      dictGet? ((List.enumFrom n headers).map (fun p => (p.2, f p.1 p.2))) k =
        some (f (n + posOf k headers) k)
  | [], n, k, h => absurd h (List.not_mem_nil k)
  | h0 :: t, n, k, hm => by
    simp only [List.enumFrom, List.map_cons, dictGet?, posOf]
    by_cases he : h0 = k
    · rw [if_pos he, if_pos he]
      subst he
      simp
    · rw [if_neg he, if_neg he]
      have hmt : k ∈ t := by
        rcases List.mem_cons.mp hm with h1 | h1
        · exact absurd h1.symm he
        · exact h1
      rw [dictGet?_enum_map f t (n + 1) k hmt]
      have : n + 1 + posOf k t = n + (posOf k t + 1) := by omega
      rw [this]

theorem buildRecord_keys (headers parts : List (List Char)) (hnd : headers.Nodup) :
    (buildRecord headers parts).map Prod.fst = headers := by
  rw [buildRecord_eq headers parts hnd, List.map_map]
  rw [show (Prod.fst ∘ fun p : Nat × List Char =>
      (p.2, fieldVal p.2 (parts.getD p.1 []))) = Prod.snd from rfl]
  exact List.enum_map_snd headers

theorem buildRecord_get (headers parts : List (List Char)) (hnd : headers.Nodup)
    (k : List Char) (hk : k ∈ headers) :
    dictGet? (buildRecord headers parts) k =
      some (fieldVal k (parts.getD (posOf k headers) [])) := by
  rw [buildRecord_eq headers parts hnd]
  have h := dictGet?_enum_map
    (fun i key => fieldVal key (parts.getD i [])) headers 0 k hk
  simpa using h

theorem tipAppend_keys {r : PyRecord} (raw : List Char)
    (h : tipK ∈ r.map Prod.fst) :
    (tipAppend r raw).map Prod.fst = r.map Prod.fst :=
  dictSet_keys_of_mem _ h

theorem contFold_keys {headers : List (List Char)} (htip : tipK ∈ headers) :
    ∀ (recs : List PyRecord) (raw : List Char),
      (∀ r ∈ recs, r.map Prod.fst = headers) →
      ∀ r ∈ contFold recs raw, r.map Prod.fst = headers
  | [], raw, h => by simp [contFold]
  | r0 :: rest, raw, h => by
    intro r hr
    simp only [contFold] at hr
    by_cases he : rest = []
    · rw [if_pos he] at hr
      have heq : r = tipAppend r0 raw := by simpa using hr
      subst heq
      rw [tipAppend_keys raw]
      · exact h r0 (List.mem_cons_self r0 rest)
      · rw [h r0 (List.mem_cons_self r0 rest)]
        exact htip
    · rw [if_neg he] at hr
      rcases List.mem_cons.mp hr with h1 | h1
      · exact h1 ▸ h r0 (List.mem_cons_self r0 rest)
      · exact contFold_keys htip rest raw
          (fun x hx => h x (List.mem_cons_of_mem _ hx)) r h1

theorem contFold_concat :
    ∀ (recs : List PyRecord) (last : PyRecord) (raw : List Char),
      contFold (recs ++ [last]) raw = recs ++ [tipAppend last raw]
  | [], last, raw => by simp [contFold]
  | r :: rest, last, raw => by
    simp only [List.cons_append, contFold, List.append_eq]
    rw [if_neg (by simp), contFold_concat rest last raw]

/-! ### Parser state-machine lemmas -/

theorem parseStep_cont (headers : List (List Char)) (sep : Int)
    (recs : List PyRecord) (raw : List Char)
    (h1 : newrecMatch raw = false) (h2 : (countPipes raw : Int) < sep) :
    parseStep headers sep (recs, []) raw = (contFold recs raw, []) := by
  simp [parseStep, h1, h2]

theorem parseStep_emit (headers : List (List Char)) (sep : Int)
    (recs : List PyRecord) (raw : List Char)
    (h : sep ≤ (countPipes raw : Int)) :
    parseStep headers sep (recs, []) raw =
      (recs ++ [emitRecord headers sep raw], []) := by
  have hflat : (([] : List (List Char)) ++ [raw]).flatten = raw := by simp
  simp only [parseStep]
  rw [if_neg (by rintro ⟨-, -, h3⟩; exact absurd h3 (not_lt.mpr h)), hflat,
    if_neg (not_lt.mpr h)]

theorem parseStep_keys (headers : List (List Char)) (sep : Int)
    (htipK : tipK ∈ headers) (hnd : headers.Nodup)
    (st : List PyRecord × List (List Char)) (raw : List Char)
    (hinv : ∀ r ∈ st.1, r.map Prod.fst = headers) :
    ∀ r ∈ (parseStep headers sep st raw).1, r.map Prod.fst = headers := by
  intro r hr
  rcases st with ⟨recs, buf⟩
  simp only [parseStep] at hr
  by_cases hA : buf = [] ∧ newrecMatch raw = false ∧ (countPipes raw : Int) < sep
  · rw [if_pos hA] at hr
    exact contFold_keys htipK recs raw hinv r hr
  · rw [if_neg hA] at hr
    by_cases hB : (countPipes ((buf ++ [raw]).flatten) : Int) < sep
    · rw [if_pos hB] at hr
      exact hinv r hr
    · rw [if_neg hB] at hr
      rcases List.mem_append.mp hr with h1 | h1
      · exact hinv r h1
      · have he : r = emitRecord headers sep ((buf ++ [raw]).flatten) := by
          simpa using h1
        subst he
        exact buildRecord_keys _ _ hnd

theorem parseFold_keys (headers : List (List Char)) (sep : Int)
    (htipK : tipK ∈ headers) (hnd : headers.Nodup) :
    ∀ (lines : List (List Char)) (st : List PyRecord × List (List Char)),
      (∀ r ∈ st.1, r.map Prod.fst = headers) →
      ∀ r ∈ (lines.foldl (parseStep headers sep) st).1, r.map Prod.fst = headers
  | [], st, hinv => hinv
  | ln :: rest, st, hinv => by
    simp only [List.foldl_cons]
    exact parseFold_keys headers sep htipK hnd rest _
      (parseStep_keys headers sep htipK hnd st ln hinv)

theorem parsePipeLines_keys (headers : List (List Char))
    (htipK : tipK ∈ headers) (hnd : headers.Nodup) (lines : List (List Char)) :
    ∀ r ∈ parsePipeLines lines headers, r.map Prod.fst = headers := by
  intro r hr
  unfold parsePipeLines at hr
  by_cases h2 : (lines.foldl (parseStep headers ((headers.length : Int) - 1)) ([], [])).2 = []
  · rw [if_pos h2] at hr
    exact parseFold_keys headers _ htipK hnd lines ([], []) (by simp) r hr
  · rw [if_neg h2] at hr
    rcases List.mem_append.mp hr with h1 | h1
    · exact parseFold_keys headers _ htipK hnd lines ([], []) (by simp) r h1
    · have he : r = emitRecord headers ((headers.length : Int) - 1)
          ((lines.foldl (parseStep headers ((headers.length : Int) - 1))
            ([], [])).2.flatten) := by
        simpa using h1
      subst he
      exact buildRecord_keys _ _ hnd

theorem parseFold_conts (headers : List (List Char)) (sep : Int) :
    ∀ (conts : List (List Char)) (recs : List PyRecord) (last : PyRecord),
      (∀ b ∈ conts, newrecMatch b = false ∧ (countPipes b : Int) < sep) →
      conts.foldl (parseStep headers sep) (recs ++ [last], []) =
        (recs ++ [conts.foldl tipAppend last], [])
  | [], recs, last, _ => by simp
  | b :: rest, recs, last, h => by
    have hb := h b (List.mem_cons_self b rest)
    simp only [List.foldl_cons]
    rw [parseStep_cont headers sep _ b hb.1 hb.2, contFold_concat]
    exact parseFold_conts headers sep rest recs (tipAppend last b)
      (fun x hx => h x (List.mem_cons_of_mem _ hx))

theorem tipAppend_get (r : PyRecord) (raw : List Char) {v : List Char}
    (hv : dictGet? r tipK = some v) (hne : v ≠ []) :
    dictGet? (tipAppend r raw) tipK = some (v ++ '\n' :: cleanTip raw) := by
  unfold tipAppend
  simp only [hv, Option.getD_some]
  rw [if_pos hne]
  exact dictGet?_set_self r tipK _

theorem foldl_tipAppend_get :
    ∀ (conts : List (List Char)) (r : PyRecord) (v : List Char),
      dictGet? r tipK = some v → v ≠ [] →
      dictGet? (conts.foldl tipAppend r) tipK =
        some (v ++ (conts.map (fun b => '\n' :: cleanTip b)).flatten)
  | [], r, v, hv, _ => by simpa using hv
  | b :: rest, r, v, hv, hne => by
    simp only [List.foldl_cons, List.map_cons, List.flatten_cons]
    rw [foldl_tipAppend_get rest (tipAppend r b) (v ++ '\n' :: cleanTip b)
      (tipAppend_get r b hv hne) (by simp)]
    simp

theorem fieldVal_nil (key : List Char) : fieldVal key [] = [] := by
  unfold fieldVal
  split <;> rfl

theorem metaDrop_subset {lines : List (List Char)} {l : List Char}
    (h : l ∈ metaDrop lines) : l ∈ lines := by
  cases lines with
  | nil => exact h
  | cons l0 rest =>
    simp only [metaDrop] at h
    by_cases hm : metaMatch (pyStrip l0) = true
    · rw [if_pos hm] at h
      exact List.mem_cons_of_mem _ h
    · rw [if_neg hm] at h
      exact h

theorem newrecMatch_no_pipe {l : List Char} (h : '|' ∉ l) :
    newrecMatch l = false := by
  have hh : ((l.dropWhile isPySpace).drop
      ((l.dropWhile isPySpace).takeWhile isPyDigit).length).head? ≠ some '|' := by
    intro he
    exact h (List.Sublist.mem
      (List.mem_of_mem_drop (List.mem_of_mem_head? (Option.mem_def.mpr he)))
      (List.dropWhile_sublist isPySpace))
  simp only [newrecMatch]
  rw [decide_eq_false hh, Bool.and_false]

theorem countPipes_no_pipe {l : List Char} (h : '|' ∉ l) : countPipes l = 0 := by
  unfold countPipes
  rw [List.countP_eq_zero]
  intro a ha
  simp only [decide_eq_true_eq]
  rintro rfl
  exact h ha

theorem parseFold_discard (headers : List (List Char)) (sep : Int)
    (hsep : 1 ≤ sep) :
    ∀ (lines : List (List Char)), (∀ ln ∈ lines, '|' ∉ ln) →
      lines.foldl (parseStep headers sep) ([], []) = ([], [])
  | [], _ => rfl
  | ln :: rest, h => by
    simp only [List.foldl_cons]
    rw [parseStep_cont headers sep [] ln
      (newrecMatch_no_pipe (h ln (List.mem_cons_self ln rest)))
      (by rw [countPipes_no_pipe (h ln (List.mem_cons_self ln rest))]; omega)]
    exact parseFold_discard headers sep hsep rest
      (fun x hx => h x (List.mem_cons_of_mem _ hx))

theorem parsePipeLines_discard (headers : List (List Char))
    (hlen : 2 ≤ headers.length) (lines : List (List Char))
    (h : ∀ ln ∈ lines, '|' ∉ ln) : parsePipeLines lines headers = [] := by
  have hsep : 1 ≤ (headers.length : Int) - 1 := by omega
  simp only [parsePipeLines]
  rw [parseFold_discard headers _ hsep lines h]
  rfl

theorem parseFold_sep_zero (headers : List (List Char)) :
    ∀ (lines : List (List Char)) (recs : List PyRecord),
      lines.foldl (parseStep headers 0) (recs, []) =
        (recs ++ lines.map (emitRecord headers 0), [])
  | [], recs => by simp
  | ln :: rest, recs => by
    simp only [List.foldl_cons]
    rw [parseStep_emit headers 0 recs ln (Int.natCast_nonneg _)]
    rw [parseFold_sep_zero headers rest (recs ++ [emitRecord headers 0 ln])]
    simp

theorem parsePipeLines_single (h : List Char) (lines : List (List Char)) :
    parsePipeLines lines [h] = lines.map (emitRecord [h] 0) := by
  have e : (([h] : List (List Char)).length : Int) - 1 = 0 := by simp
  simp only [parsePipeLines, e]
  rw [parseFold_sep_zero [h] lines []]
  simp

theorem emit_blank_single (h : List Char) : emitRecord [h] 0 ['\n'] = [(h, [])] := by
  have e1 : rstripNl ['\n'] = [] := by decide
  have e2 : pySplit '|' 0 ([] : List Char) = [[]] := by decide
  unfold emitRecord
  rw [e1, e2]
  have e3 : padTo (([h] : List (List Char)).length) [([] : List Char)] = [[]] := by
    simp [padTo]
  rw [e3]
  unfold buildRecord
  simp [List.enum_singleton, dictSet, fieldVal_nil]

/-! ### Claim theorems -/

/-- Claim C1: for the schema `["Id","Name","Tip"]` and the four
newline-terminated input lines `V.1|3|`, `1|Sword|A sharp`, `blade.`,
`2|Shield|Round`, `parse_pipe_text` returns exactly the two records
`{"Id":"1","Name":"Sword","Tip":"A sharp\nblade."}` (with one embedded
newline in the Tip value) and `{"Id":"2","Name":"Shield","Tip":"Round"}`,
in this order. -/
theorem claim1_end_to_end :
    parsePipeTextS "V.1|3|\n1|Sword|A sharp\nblade.\n2|Shield|Round\n"
      ["Id", "Name", "Tip"] =
      [[("Id", "1"), ("Name", "Sword"), ("Tip", "A sharp\nblade.")],
       [("Id", "2"), ("Name", "Shield"), ("Tip", "Round")]] := by
  decide

/-- Claim C2 (amended): for a duplicate-free schema that contains a field
literally named `Tip`, every record emitted by `parse_pipe_text` carries
exactly the schema's keys in schema order — also after continuation lines
are folded into it; a missing part yields the empty-string value.  (The
original claim, for arbitrary schemas, fails: folding a continuation line
into a record whose schema has no literal `Tip` field adds a new `Tip`
key.) -/
theorem claim2_entry_invariant (headers : List (List Char)) (t : List Char)
    (hnd : headers.Nodup) (htip : tipK ∈ headers) :
    (∀ r ∈ parse_pipe_text t headers, r.map Prod.fst = headers) ∧
    (∀ key : List Char, fieldVal key [] = []) :=
  ⟨fun r hr => parsePipeLines_keys headers htip hnd _ r hr, fieldVal_nil⟩

/-- Claim C2 witness: the invariant instantiated at a concrete parse. -/
theorem claim2_witness :
    List.map (List.map Prod.fst) (parse_pipe_text ("1|a\n".data) [tipK]) =
      [[tipK]] := by
  have h := (claim2_entry_invariant [tipK] ("1|a\n".data) (by decide) (by decide)).1
  have e : parse_pipe_text ("1|a\n".data) [tipK] = [[(tipK, "1|a".data)]] := by
    decide
  rw [e]
  have h2 := h [(tipK, "1|a".data)] (by rw [e]; exact List.mem_singleton_self _)
  simp only [List.map_cons, List.map_nil, h2]

/-- Claim C2 counterexample: with schema `["A","B"]` (no `Tip` field) the
continuation line `y` is folded into the previous record under a new `Tip`
key, so the record has 3 entries instead of `len(schema) = 2`. -/
theorem claim2_counterexample :
    parsePipeTextS "1|x\ny\n" ["A", "B"] =
      [[("A", "1"), ("B", "x"), ("Tip", "y")]] ∧
    (parsePipeTextS "1|x\ny\n" ["A", "B"]).map List.length = [3] := by
  exact ⟨by decide, by decide⟩

/-- Claim C4 (amended): `parse_pipe_text` is total (it is a function in this
embedding) and the empty text yields zero records; but a non-empty text with
no delimiter characters yields ZERO records for any schema with at least two
fields — every line is discarded as an orphan continuation line — not the
single empty-padded record the original claim states. -/
theorem claim4_no_delimiters (headers : List (List Char)) (t : List Char)
    (hlen : 2 ≤ headers.length) (hnp : '|' ∉ t) :
    parse_pipe_text t headers = [] ∧ parse_pipe_text [] headers = [] := by
  refine ⟨?_, rfl⟩
  show parsePipeLines (metaDrop (splitlinesKeep (lstripBOM t))) headers = []
  refine parsePipeLines_discard headers hlen _ ?_
  intro ln hln hmem
  exact hnp (List.Sublist.mem
    (mem_of_mem_splitlines (metaDrop_subset hln) hmem)
    (List.dropWhile_sublist _))

/-- Claim C4 witness: a concrete no-delimiter text parses to no records. -/
theorem claim4_witness :
    parse_pipe_text ("hello\n".data) ["A".data, "B".data] = [] ∧
    parse_pipe_text [] ["A".data, "B".data] = [] :=
  claim4_no_delimiters ["A".data, "B".data] ("hello\n".data) (by decide)
    (by decide)

/-- Claim C4 counterexample: the claimed "single record whose later fields
are empty strings" does not appear — the parse of a delimiter-free text is
empty. -/
theorem claim4_counterexample :
    parsePipeTextS "hello\n" ["A", "B"] = [] ∧
    parsePipeTextS "hello\n" ["A", "B"] ≠
      [[("A", "hello"), ("B", "")]] := by
  exact ⟨by decide, by decide⟩

/-- Claim C10: for a schema of length one the expected separator count is
zero, so every line (after optional removal of a leading metadata line)
immediately completes a record: the parse is exactly one record per line,
no line is folded into a previous record or discarded, and a blank line
(a bare line terminator) yields the empty-string value. -/
theorem claim10_single_field (t : List Char) (h : List Char) :
    parse_pipe_text t [h] =
      (metaDrop (splitlinesKeep (lstripBOM t))).map (emitRecord [h] 0) ∧
    emitRecord [h] 0 ['\n'] = [(h, [])] :=
  ⟨parsePipeLines_single h _, emit_blank_single h⟩

theorem countPipes_append_nl (l : List Char) :
    countPipes (l ++ ['\n']) = countPipes l := by
  unfold countPipes
  rw [List.countP_append]
  simp [List.countP_cons]

theorem rstripNl_nobreak {body : List Char}
    (h : ∀ c ∈ body, isLineBreak c = false) : rstripNl body = body := by
  apply rstripP_all_neg
  intro c hc
  have hcl := h c hc
  exact decide_eq_false (fun e => by subst e; exact absurd hcl (by decide))

theorem rstripNl_append_nl {body : List Char}
    (h : ∀ c ∈ body, isLineBreak c = false) :
    rstripNl (body ++ ['\n']) = body := by
  unfold rstripNl
  rw [rstripP_append_pos _ '\n' (by decide)]
  exact rstripNl_nobreak h

/-- Claim C3 (amended): for a duplicate-free schema containing a field
literally named `Tip`, a record whose main line completes immediately and
which is followed by `K` newline-terminated continuation lines (each failing
the record-start pattern and the separator threshold) parses to a single
record; its Tip value is the cleaned main-line Tip fragment followed by the
cleaned continuation fragments, each preceded by a single newline, where
cleaning strips at most one leading and one trailing pipe (assuming the
main fragment cleans to a non-empty string; an empty fragment is replaced
rather than joined).  (The original claim fails: the continuation branch
matches the key `Tip` literally, not case-insensitively, and the refactored
variant's `clean_tip_field` strips every edge pipe, not exactly one.) -/
theorem claim3_tip_reassembly (headers : List (List Char))
    (mainBody : List Char) (contBodies : List (List Char))
    (hnd : headers.Nodup) (htip : tipK ∈ headers)
    (hmb : ∀ c ∈ mainBody, isLineBreak c = false)
    (hbom : mainBody.head? ≠ some '﻿')
    (hmeta : metaMatch (pyStrip (mainBody ++ ['\n'])) = false)
    (hsep : parseSep headers ≤ (countPipes mainBody : Int))
    (hconts : ∀ b ∈ contBodies, (∀ c ∈ b, isLineBreak c = false) ∧
      newrecMatch (b ++ ['\n']) = false ∧
      (countPipes b : Int) < parseSep headers)
    (hfrag : tipFrag headers mainBody ≠ []) :
    parse_pipe_text (mainBody ++ '\n' :: (contBodies.map (· ++ ['\n'])).flatten)
        headers =
      [contBodies.foldl (fun r b => tipAppend r (b ++ ['\n']))
        (emitRecord headers (parseSep headers) (mainBody ++ ['\n']))] ∧
    dictGet? (contBodies.foldl (fun r b => tipAppend r (b ++ ['\n']))
        (emitRecord headers (parseSep headers) (mainBody ++ ['\n']))) tipK =
      some (tipFrag headers mainBody ++
        (contBodies.map (fun b => '\n' :: cleanTip (b ++ ['\n']))).flatten) := by
  have hbom' : (mainBody ++ '\n' ::
      (contBodies.map (· ++ ['\n'])).flatten).head? ≠ some '﻿' := by
    cases mainBody with
    | nil => simp
    | cons c t =>
      simp only [List.cons_append, List.head?_cons]
      intro he
      exact hbom (by simpa using he)
  have e0 := lstripBOM_eq_self hbom'
  have e1 : splitlinesKeep (mainBody ++ '\n' ::
      (contBodies.map (· ++ ['\n'])).flatten) =
      (mainBody ++ ['\n']) :: contBodies.map (· ++ ['\n']) := by
    rw [splitlines_append_nl mainBody _ hmb,
      splitlines_map_nl contBodies (fun b hb => (hconts b hb).1)]
  have e2 : metaDrop ((mainBody ++ ['\n']) :: contBodies.map (· ++ ['\n'])) =
      (mainBody ++ ['\n']) :: contBodies.map (· ++ ['\n']) := by
    simp only [metaDrop]
    rw [if_neg (by simp [hmeta])]
  have etext : parse_pipe_text (mainBody ++ '\n' ::
      (contBodies.map (· ++ ['\n'])).flatten) headers =
      parsePipeLines ((mainBody ++ ['\n']) :: contBodies.map (· ++ ['\n']))
        headers := by
    unfold parse_pipe_text
    rw [e0, e1, e2]
  have hcount : parseSep headers ≤ (countPipes (mainBody ++ ['\n']) : Int) := by
    rw [countPipes_append_nl]
    exact hsep
  have hcontsL : ∀ b ∈ contBodies.map (· ++ ['\n']),
      newrecMatch b = false ∧ (countPipes b : Int) < parseSep headers := by
    intro b hb
    rcases List.mem_map.mp hb with ⟨b0, hb0, rfl⟩
    refine ⟨(hconts b0 hb0).2.1, ?_⟩
    rw [countPipes_append_nl]
    exact (hconts b0 hb0).2.2
  have fold_eq : ((mainBody ++ ['\n']) :: contBodies.map (· ++ ['\n'])).foldl
      (parseStep headers (parseSep headers)) ([], []) =
      ([(contBodies.map (· ++ ['\n'])).foldl tipAppend
        (emitRecord headers (parseSep headers) (mainBody ++ ['\n']))], []) := by
    simp only [List.foldl_cons]
    rw [parseStep_emit headers (parseSep headers) [] _ hcount]
    have h2 := parseFold_conts headers (parseSep headers)
      (contBodies.map (· ++ ['\n'])) []
      (emitRecord headers (parseSep headers) (mainBody ++ ['\n'])) hcontsL
    simpa using h2
  have hmf : rstripNl mainBody = mainBody := rstripNl_nobreak hmb
  have hget0 : dictGet? (emitRecord headers (parseSep headers)
      (mainBody ++ ['\n'])) tipK = some (tipFrag headers mainBody) := by
    show dictGet? (buildRecord headers (padTo headers.length
      (pySplit '|' (parseSep headers) (rstripNl (mainBody ++ ['\n']))))) tipK = _
    rw [rstripNl_append_nl hmb, buildRecord_get headers _ hnd tipK htip]
    unfold tipFrag mainParts
    rw [hmf]
    rw [show fieldVal tipK ((padTo headers.length (pySplit '|' (parseSep headers)
      mainBody)).getD (posOf tipK headers) []) = cleanTip ((padTo headers.length
      (pySplit '|' (parseSep headers) mainBody)).getD (posOf tipK headers) [])
      from by unfold fieldVal; rw [if_pos (by decide)]]
  have hfoldmap : (contBodies.map (· ++ ['\n'])).foldl tipAppend
      (emitRecord headers (parseSep headers) (mainBody ++ ['\n'])) =
      contBodies.foldl (fun r b => tipAppend r (b ++ ['\n']))
        (emitRecord headers (parseSep headers) (mainBody ++ ['\n'])) :=
    List.foldl_map _ _ _ _
  constructor
  · rw [etext]
    show (if (((mainBody ++ ['\n']) :: contBodies.map (· ++ ['\n'])).foldl
        (parseStep headers ((headers.length : Int) - 1)) ([], [])).2 = []
      then _ else _) = _
    rw [show ((headers.length : Int) - 1) = parseSep headers from rfl, fold_eq,
      hfoldmap]
    simp
  · rw [← hfoldmap]
    rw [foldl_tipAppend_get (contBodies.map (· ++ ['\n'])) _ _ hget0 hfrag]
    rw [List.map_map]
    rfl

/-- Claim C3 witness: schema `["Id","Tip"]`, main line `1|A`, one
continuation line `b`: the single parsed record's Tip is `A\nb`. -/
theorem claim3_witness :
    parse_pipe_text ("1|A\nb\n".data) [['I', 'd'], tipK] =
      [[(['I', 'd'], ['1']), (tipK, ['A', '\n', 'b'])]] := by
  have h := claim3_tip_reassembly [['I', 'd'], tipK] ("1|A".data) [['b']]
    (by decide) (by decide) (by decide) (by decide) (by decide) (by decide)
    (by decide) (by decide)
  have e : ("1|A".data ++ '\n' ::
      (([['b']] : List (List Char)).map (· ++ ['\n'])).flatten) =
      "1|A\nb\n".data := by decide
  rw [← e]
  rw [h.1]
  decide

/-- Claim C3 counterexample: with schema `["Id","TIP"]` — a case-insensitive
match for Tip — the continuation line is NOT folded into the `TIP` field but
into a separate literal `Tip` key, so the record's `TIP` value stays `A`
instead of the claimed `A\ncont`; and the refactored `clean_tip_field`
strips every edge pipe of `||x||`, not exactly one. -/
theorem claim3_counterexample :
    parsePipeTextS "1|A\ncont\n" ["Id", "TIP"] =
      [[("Id", "1"), ("TIP", "A"), ("Tip", "cont")]] ∧
    Refactored.clean_tip_field ("||x||".data) = "x".data := by
  exact ⟨by decide, by decide⟩

theorem pyStrip_meta_line (d1 d2 : List Char) :
    pyStrip (('V' :: '.' :: d1 ++ '|' :: d2 ++ ['|']) ++ ['\n']) =
      'V' :: '.' :: d1 ++ '|' :: d2 ++ ['|'] := by
  unfold pyStrip
  simp only [List.cons_append]
  rw [List.dropWhile_cons_of_neg (by decide)]
  rw [show 'V' :: '.' :: ((d1 ++ '|' :: d2 ++ ['|']) ++ ['\n']) =
    ('V' :: '.' :: (d1 ++ '|' :: d2 ++ ['|'])) ++ ['\n'] from by simp]
  rw [rstripP_append_pos _ '\n' (by decide)]
  rw [show ('V' :: '.' :: (d1 ++ '|' :: d2 ++ ['|'])) =
    ('V' :: '.' :: (d1 ++ '|' :: d2)) ++ ['|'] from by simp]
  rw [rstripP_append_neg _ '|' (by decide)]

theorem metaMatch_line (d1 d2 : List Char) (h1 : d1 ≠ [])
    (h2 : ∀ c ∈ d1, isDigitCh c = true) (h3 : d2 ≠ [])
    (h4 : ∀ c ∈ d2, isDigitCh c = true) :
    metaMatch ('V' :: '.' :: d1 ++ '|' :: d2 ++ ['|']) = true := by
  simp only [metaMatch]
  rw [show List.dropWhile (fun c => decide (c = '|') || isPySpace c)
    ('V' :: '.' :: d1 ++ '|' :: d2 ++ ['|']) =
    'V' :: '.' :: d1 ++ '|' :: d2 ++ ['|'] from rfl]
  simp only [List.cons_append, List.append_assoc]
  have e3 : ('V' :: '.' :: (d1 ++ '|' :: (d2 ++ ['|']))).drop 2 =
      d1 ++ '|' :: (d2 ++ ['|']) := rfl
  have e4 : (d1 ++ '|' :: (d2 ++ ['|'])).takeWhile isDigitCh = d1 :=
    takeWhile_append_all isDigitCh d1 '|' _ h2 (by decide)
  have e5 : (d1 ++ '|' :: (d2 ++ ['|'])).drop d1.length = '|' :: (d2 ++ ['|']) :=
    List.drop_left d1 _
  have e6 : (d1 ++ '|' :: (d2 ++ ['|'])).drop (d1.length + 1) = d2 ++ ['|'] := by
    rw [← List.drop_drop, e5]
    rfl
  have e7 : (d2 ++ ['|']).takeWhile isDigitCh = d2 := by
    have h := takeWhile_append_all isDigitCh d2 '|' [] h4 (by decide)
    exact h
  rw [e3, e4, e5, e6, e7]
  simp [h1, h3]

/-- Claim C8 (amended): prepending a well-formed `V.<n>|<cols>|` metadata
line to a record text whose own first line does not match the metadata
pattern leaves the parse unchanged — provided the text does not begin with
a byte-order mark.  (The original claim fails for BOM-initial texts: the
BOM is only stripped when it starts the whole input, so prepending the
metadata line leaves an interior BOM that changes the first record.) -/
theorem claim8_metadata_prepend (d1 d2 t : List Char)
    (headers : List (List Char))
    (h1 : d1 ≠ []) (h2 : ∀ c ∈ d1, isDigitCh c = true)
    (h3 : d2 ≠ []) (h4 : ∀ c ∈ d2, isDigitCh c = true)
    (hbom : t.head? ≠ some '﻿')
    (hfl : ∀ l ∈ (splitlinesKeep t).take 1, metaMatch (pyStrip l) = false) :
    parse_pipe_text (('V' :: '.' :: d1 ++ '|' :: d2 ++ ['|']) ++ '\n' :: t)
        headers =
      parse_pipe_text t headers := by
  have hnb : ∀ c ∈ ('V' :: '.' :: d1 ++ '|' :: d2 ++ ['|']),
      isLineBreak c = false := by
    intro c hc
    have hdisj : c = 'V' ∨ c = '.' ∨ c ∈ d1 ∨ c = '|' ∨ c ∈ d2 := by
      revert hc
      simp only [List.mem_append, List.mem_cons, List.mem_singleton,
        List.not_mem_nil, or_false]
      tauto
    rcases hdisj with rfl | rfl | hc1 | rfl | hc2
    · decide
    · decide
    · exact (isDigitCh_props (h2 c hc1)).1
    · decide
    · exact (isDigitCh_props (h4 c hc2)).1
  have hrhs : metaDrop (splitlinesKeep t) = splitlinesKeep t := by
    cases hsl : splitlinesKeep t with
    | nil => rfl
    | cons l0 ls =>
      simp only [metaDrop]
      have hm := hfl l0 (by rw [hsl]; simp)
      rw [if_neg (by simp [hm])]
  have hb1 : ((('V' :: '.' :: d1 ++ '|' :: d2 ++ ['|']) ++ '\n' :: t)).head? ≠
      some '﻿' := by
    simp
  unfold parse_pipe_text
  rw [lstripBOM_eq_self hb1, splitlines_append_nl _ t hnb,
    lstripBOM_eq_self hbom, hrhs]
  congr 1
  simp only [metaDrop]
  rw [if_pos]
  rw [pyStrip_meta_line d1 d2]
  exact metaMatch_line d1 d2 h1 h2 h3 h4

/-- Claim C8 witness: prepending `V.1|2|` before a concrete record text.  -/
theorem claim8_witness :
    parse_pipe_text (('V' :: '.' :: ['1'] ++ '|' :: ['2'] ++ ['|']) ++
        '\n' :: "1|a\n".data) ["A".data, "B".data] =
      parse_pipe_text ("1|a\n".data) ["A".data, "B".data] :=
  claim8_metadata_prepend ['1'] ['2'] ("1|a\n".data) ["A".data, "B".data]
    (by decide) (by decide) (by decide) (by decide) (by decide) (by decide)

/-- Claim C8 counterexample: for the BOM-initial record text `﻿1|a` the
claim fails — parsing without the metadata line strips the BOM, parsing
with it keeps the BOM inside the first field. -/
theorem claim8_counterexample :
    parsePipeTextS "﻿1|a\n" ["A", "B"] = [[("A", "1"), ("B", "a")]] ∧
    parsePipeTextS ("V.1|2|\n" ++ "﻿1|a\n") ["A", "B"] =
      [[("A", "﻿1"), ("B", "a")]] := by
  exact ⟨by decide, by decide⟩

theorem skip_metadata_append :
    ∀ (a b : List (List Char)),
      Refactored.skip_metadata_lines (a ++ b) =
        Refactored.skip_metadata_lines a ++ Refactored.skip_metadata_lines b
  | [], b => rfl
  | l :: rest, b => by
    simp only [List.cons_append, Refactored.skip_metadata_lines,
      List.append_eq]
    by_cases h : metaMatch (pyStrip l) = true
    · rw [if_pos h, if_pos h, skip_metadata_append rest b]
    · rw [if_neg h, if_neg h, skip_metadata_append rest b]
      simp

/-- Claim C9 (amended): `parser.py`'s `parse_pipe_text` removes exactly the
leading line, and only when that (whitespace-stripped) first line matches the
metadata pattern; no later line is touched by its metadata stripping.  The
refactored variant's `skip_metadata_lines`, by contrast, removes every
matching line wherever it occurs, so the original claim's "no
metadata-looking line occurring later is removed" fails for it. -/
theorem claim9_metadata_strip (m l0 : List Char) (ls ls2 : List (List Char))
    (h1 : metaMatch (pyStrip m) = true) (h2 : metaMatch (pyStrip l0) = false) :
    metaDrop (m :: ls) = ls ∧
    metaDrop (l0 :: ls) = l0 :: ls ∧
    Refactored.skip_metadata_lines (ls ++ m :: ls2) =
      Refactored.skip_metadata_lines ls ++ Refactored.skip_metadata_lines ls2 := by
  refine ⟨?_, ?_, ?_⟩
  · simp only [metaDrop]
    rw [if_pos h1]
  · simp only [metaDrop]
    rw [if_neg (by simp [h2])]
  · rw [skip_metadata_append]
    congr 1
    simp only [Refactored.skip_metadata_lines]
    rw [if_pos h1]

/-- Claim C9 witness: the amended statement at concrete lines. -/
theorem claim9_witness :
    metaDrop (("V.2|5|\n".data) :: ["1|a\n".data]) = ["1|a\n".data] ∧
    metaDrop (("1|a\n".data) :: ["1|a\n".data]) =
      ("1|a\n".data) :: ["1|a\n".data] ∧
    Refactored.skip_metadata_lines
        (["1|a\n".data] ++ ("V.2|5|\n".data) :: ["2|b\n".data]) =
      Refactored.skip_metadata_lines ["1|a\n".data] ++
        Refactored.skip_metadata_lines ["2|b\n".data] :=
  claim9_metadata_strip ("V.2|5|\n".data) ("1|a\n".data) ["1|a\n".data]
    ["2|b\n".data] (by decide) (by decide)

/-- Claim C9 counterexample: the refactored parser deletes a
metadata-looking line from the MIDDLE of the input (two records come back),
while `parser.py` — whose stripping the claim describes — keeps it as data
(three records). -/
theorem claim9_counterexample :
    Refactored.parse_pipe_text ("1|a\nV.2|5|\n2|b\n".data)
        ["Id".data, "Name".data] =
      [[("Id".data, "1".data), ("Name".data, "a".data)],
       [("Id".data, "2".data), ("Name".data, "b".data)]] ∧
    parsePipeTextS "1|a\nV.2|5|\n2|b\n" ["Id", "Name"] =
      [[("Id", "1"), ("Name", "a")], [("Id", "V.2"), ("Name", "5|")],
       [("Id", "2"), ("Name", "b")]] := by
  exact ⟨by decide, by decide⟩

/-- Claim C6 (amended): the schema-less classifier returns `false` whenever
fewer than 5 of the first 20 stripped non-blank lines (after metadata
removal) are id-prefixed; it returns `true` when there are at least 5
non-blank lines, at least 5 id-prefixed lines among the first 20, and some
id-prefixed line AMONG THE FIRST 10 has at least 3 pipes.  (The original
claim fails because the qualifying-line scan only covers the first 10
lines, not all id-prefixed lines.) -/
theorem claim6_classifier_boundary (t : List Char) :
    (((Refactored.skip_metadata_lines (strippedNonblank t)).take 20).countP
        idMatch < 5 →
      Refactored.is_pipe_file t none = false) ∧
    (5 ≤ (strippedNonblank t).length →
      5 ≤ ((Refactored.skip_metadata_lines (strippedNonblank t)).take 20).countP
        idMatch →
      ((Refactored.skip_metadata_lines (strippedNonblank t)).take 10).any
        (fun ln => idMatch ln && decide (3 ≤ countPipes ln)) = true →
      Refactored.is_pipe_file t none = true) := by
  constructor
  · intro hcnt
    simp only [Refactored.is_pipe_file]
    by_cases hlen : (strippedNonblank t).length < 5
    · rw [if_pos hlen]
    · rw [if_neg hlen, if_pos hcnt]
  · intro hlen hcnt hany
    simp only [Refactored.is_pipe_file]
    rw [if_neg (by omega), if_neg (by omega)]
    exact hany

/-- Claim C6 witness: a one-line text classifies negative; five qualifying
rows classify positive. -/
theorem claim6_witness :
    Refactored.is_pipe_file ("x\n".data) none = false ∧
    Refactored.is_pipe_file
      ("1|a|b|c\n2|a|b|c\n3|a|b|c\n4|a|b|c\n5|a|b|c\n".data) none = true :=
  ⟨(claim6_classifier_boundary ("x\n".data)).1 (by decide),
   (claim6_classifier_boundary
      ("1|a|b|c\n2|a|b|c\n3|a|b|c\n4|a|b|c\n5|a|b|c\n".data)).2
     (by decide) (by decide) (by decide)⟩

/-- Claim C6 counterexample: 10 id-prefixed lines with a single pipe
followed by an 11th id-prefixed line with 3 pipes — at least 5 id-prefixed
lines among the first 20 and a qualifying id-prefixed line exist, yet the
classifier answers `false` because the qualifying line is outside the first
10. -/
theorem claim6_counterexample :
    Refactored.is_pipe_file
      ("1|a\n1|a\n1|a\n1|a\n1|a\n1|a\n1|a\n1|a\n1|a\n1|a\n2|a|b|c\n".data)
      none = false ∧
    (Refactored.skip_metadata_lines (strippedNonblank
      ("1|a\n1|a\n1|a\n1|a\n1|a\n1|a\n1|a\n1|a\n1|a\n1|a\n2|a|b|c\n".data))).any
      (fun ln => idMatch ln && decide (3 ≤ countPipes ln)) = true ∧
    5 ≤ ((Refactored.skip_metadata_lines (strippedNonblank
      ("1|a\n1|a\n1|a\n1|a\n1|a\n1|a\n1|a\n1|a\n1|a\n1|a\n2|a|b|c\n".data))).take
        20).countP idMatch := by
  exact ⟨by decide, by decide, by decide⟩

theorem filterMap_strip_sublist (s : List Char) :
    ∀ (l : List (List Char)),
      List.Sublist
        (l.filterMap (fun h => if pyStrip h = [] then none else some (pyStrip h)))
        (l.map pyStrip)
  | [] => List.Sublist.refl []
  | a :: l => by
    simp only [List.filterMap_cons, List.map_cons]
    by_cases h : pyStrip a = []
    · rw [if_pos h]
      exact List.Sublist.cons _ (filterMap_strip_sublist s l)
    · rw [if_neg h]
      exact List.Sublist.cons₂ _ (filterMap_strip_sublist s l)

theorem filterMap_strip_eq_filter :
    ∀ (l : List (List Char)),
      (l.filterMap (fun h => if pyStrip h = [] then none else some (pyStrip h)))
        = (l.map pyStrip).filter (fun t => decide (t ≠ []))
  | [] => rfl
  | a :: l => by
    simp only [List.filterMap_cons, List.map_cons, List.filter_cons]
    by_cases h : pyStrip a = []
    · rw [if_pos h, filterMap_strip_eq_filter l]
      simp [h]
    · rw [if_neg h, filterMap_strip_eq_filter l]
      simp [h]

/-- Claim C7 (amended): `parser.py`'s `load_headers` returns exactly the
file's comma-separated tokens in source order, each trimmed, with precisely
the tokens that are empty after trimming dropped (it equals the
spec-described pipeline `loadHeadersSpec`); every returned token is
non-empty and trim-idempotent.  The refactored variant's `load_headers`
does NOT drop empty tokens (and reads only the first line), so the original
claim fails for it. -/
theorem claim7_header_tokens (s : List Char) :
    load_headers s = loadHeadersSpec s ∧
    (∀ tk ∈ load_headers s, tk ≠ [] ∧ pyStrip tk = tk) ∧
    List.Sublist (load_headers s) ((pySplit ',' (-1) (pyStrip s)).map pyStrip) := by
  refine ⟨filterMap_strip_eq_filter _, ?_, filterMap_strip_sublist s _⟩
  intro tk htk
  unfold load_headers at htk
  rcases List.mem_filterMap.mp htk with ⟨a, _, hfa⟩
  by_cases h : pyStrip a = []
  · rw [if_pos h] at hfa
    exact absurd hfa (by simp)
  · rw [if_neg h] at hfa
    have he := Option.some.inj hfa
    subst he
    exact ⟨h, pyStrip_idem a⟩

/-- Claim C7 counterexample: on the header text `a,,b` the refactored
loader keeps the empty middle token while `parser.py`'s drops it. -/
theorem claim7_counterexample :
    Refactored.load_headers ("a,,b".data) = some [['a'], [], ['b']] ∧
    load_headers ("a,,b".data) = [['a'], ['b']] := by
  exact ⟨by decide, by decide⟩

theorem detFold_dominant (raw : List Nat) (pc : List Char × List Char)
    (sc : Int) :
    ∀ (l : List (List Char × (List Nat → List Char)))
      (st : Option ((List Char × List Char) × Int)),
      (st = none ∨ ∃ p s, st = some (p, s) ∧ (s < sc ∨ (p = pc ∧ s = sc))) →
      (∀ x ∈ l, scoreOf (x.2 raw) < sc ∨
        ((x.2 raw, x.1) = pc ∧ scoreOf (x.2 raw) = sc)) →
      ((∃ x ∈ l, (x.2 raw, x.1) = pc ∧ scoreOf (x.2 raw) = sc) ∨
        st = some (pc, sc)) →
      l.foldl (detStep raw) st = some (pc, sc)
  | [], st, _, _, hin => by
    rcases hin with ⟨x, hx, _⟩ | h
    · exact absurd hx (List.not_mem_nil x)
    · simpa using h
  | x :: rest, st, hst, hall, hin => by
    simp only [List.foldl_cons]
    rcases hall x (List.mem_cons_self x rest) with hdom | ⟨hxp, hxs⟩
    · refine detFold_dominant raw pc sc rest (detStep raw st x) ?_
        (fun y hy => hall y (List.mem_cons_of_mem _ hy)) ?_
      · rcases hst with rfl | ⟨p, s, rfl, hps⟩
        · right
          exact ⟨(x.2 raw, x.1), scoreOf (x.2 raw), by simp [detStep],
            Or.inl hdom⟩
        · simp only [detStep]
          by_cases hgt : scoreOf (x.2 raw) > s
          · rw [if_pos hgt]
            right
            exact ⟨_, _, rfl, Or.inl hdom⟩
          · rw [if_neg hgt]
            right
            exact ⟨p, s, rfl, hps⟩
      · rcases hin with ⟨y, hy, hyc⟩ | hstc
        · rcases List.mem_cons.mp hy with rfl | hy'
          · exact absurd (hyc.2 ▸ hdom) (lt_irrefl sc)
          · left
            exact ⟨y, hy', hyc⟩
        · right
          rw [hstc]
          simp only [detStep]
          rw [if_neg (by omega)]
    · have hstep : detStep raw st x = some (pc, sc) := by
        rcases hst with rfl | ⟨p, s, rfl, hps⟩
        · simp [detStep, hxp, hxs]
        · simp only [detStep]
          rcases hps with hlt | ⟨rfl, rfl⟩
          · rw [if_pos (by omega)]
            rw [hxp, hxs]
          · rw [if_neg (by omega)]
      rw [hstep]
      exact detFold_dominant raw pc sc rest (some (pc, sc))
        (Or.inr ⟨pc, sc, rfl, Or.inr ⟨rfl, rfl⟩⟩)
        (fun y hy => hall y (List.mem_cons_of_mem _ hy)) (Or.inr rfl)

/-- Claim C5 (amended): if exactly one candidate's decode is free of
replacement/control artifacts, every other candidate's decode has at least
one artifact, and no other candidate's decode contains more CJK code points
than the clean one, the detector returns the clean candidate's decoded text
and name regardless of its position in the candidate list.  (The original
claim, without the CJK condition, fails: one artifact costs 100 score
points, so a dirty decode with ten or more extra CJK code points outscores
the clean one.) -/
theorem claim5_encoding_selection
    (cands : List (List Char × (List Nat → List Char))) (raw : List Nat)
    (c : List Char × (List Nat → List Char)) (hc : c ∈ cands)
    (hclean : replCount (c.2 raw) = 0)
    (hothers : ∀ c' ∈ cands, c' ≠ c →
      1 ≤ replCount (c'.2 raw) ∧ cjkCount (c'.2 raw) ≤ cjkCount (c.2 raw)) :
    detect_encoding cands raw = (c.2 raw, c.1) := by
  have hdom : ∀ x ∈ cands, scoreOf (x.2 raw) < scoreOf (c.2 raw) ∨
      ((x.2 raw, x.1) = (c.2 raw, c.1) ∧
        scoreOf (x.2 raw) = scoreOf (c.2 raw)) := by
    intro x hx
    by_cases he : x = c
    · subst he
      right
      exact ⟨rfl, rfl⟩
    · left
      have h := hothers x hx he
      unfold scoreOf
      rw [hclean]
      omega
  have hfold := detFold_dominant raw (c.2 raw, c.1) (scoreOf (c.2 raw)) cands
    none (Or.inl rfl) hdom (Or.inl ⟨c, hc, rfl, rfl⟩)
  unfold detect_encoding
  rw [hfold]

/-- Claim C5 witness: two candidates, the first clean, the second with a
replacement character and no more CJK: the detector picks the first. -/
theorem claim5_witness :
    detect_encoding
      [(['e', '1'], fun _ => ['a']), (['e', '2'], fun _ => ['�'])] [] =
      (['a'], ['e', '1']) := by
  have h := claim5_encoding_selection
    [(['e', '1'], fun _ => ['a']), (['e', '2'], fun _ => ['�'])] []
    (['e', '1'], fun _ => ['a']) (List.mem_cons_self _ _) (by decide) ?_
  · exact h
  · intro c' hc' hne
    rcases List.mem_cons.mp hc' with h1 | h1
    · exact absurd h1 hne
    · have h2 : c' = (['e', '2'], fun _ => ['�']) := by simpa using h1
      subst h2
      exact ⟨by decide, by decide⟩

/-- Claim C5 counterexample: the second candidate is the unique artifact-free
one, yet the detector selects the first, whose decode has one replacement
character but eleven CJK code points (score 10 > 0). -/
theorem claim5_counterexample :
    replCount (['a', 'b', 'c'] : List Char) = 0 ∧
    replCount (List.replicate 11 '中' ++ ['�']) = 1 ∧
    detect_encoding
      [(['e', '1'], fun _ => List.replicate 11 '中' ++ ['�']),
       (['e', '2'], fun _ => ['a', 'b', 'c'])] [] =
      (List.replicate 11 '中' ++ ['�'], ['e', '1']) := by
  exact ⟨by decide, by decide, by decide⟩

